import Mathlib

/-!
Verification of the work-queue core of the jxclient-go repository.

The Go source is shallowly embedded: each Go method becomes a Lean
function on an explicit state value.  Go `map[T]struct{}` sets become
`Finset`, Go `map[K]V` maps become association lists (`List (K × V)`,
first binding wins), `time.Duration` and `time.Time` become `Int`
(nanoseconds), and goroutine launches are recorded as explicit lists of
launched tasks.  Blocking (`cond.Wait`) never mutates state, so a
blocked call is embedded as a call that returns the state unchanged.
-/

variable {α β : Type} {K : Type} {σ τ ι δ : Type}

/-- Association-list lookup: first binding for the key, mirroring a Go map read. -/
def alookup [DecidableEq α] : List (α × β) → α → Option β
  | [], _ => none
  | (a, b) :: t, k => if a = k then some b else alookup t k

/-- Association-list update: overwrite the first binding for the key, or append
a fresh binding, mirroring a Go map write. -/
def aset [DecidableEq α] : List (α × β) → α → β → List (α × β)
  | [], k, v => [(k, v)]
  | (a, b) :: t, k, v => if a = k then (k, v) :: t else (a, b) :: aset t k v

/-- Association-list removal of a key, mirroring Go `delete(m, k)`. -/
def aerase [DecidableEq α] : List (α × β) → α → List (α × β)
  | [], _ => []
  | (a, b) :: t, k => if a = k then aerase t k else (a, b) :: aerase t k

theorem alookup_aset_self [DecidableEq α] (l : List (α × β)) (k : α) (v : β) :
    alookup (aset l k v) k = some v := by
  induction l with
  | nil => simp [alookup, aset]
  | cons p t ih =>
    obtain ⟨a, b⟩ := p
    by_cases h : a = k
    · simp [alookup, aset, h]
    · simp [alookup, aset, h, ih]

theorem alookup_aset_ne [DecidableEq α] (l : List (α × β)) (k k' : α) (v : β)
    (h : k ≠ k') : alookup (aset l k v) k' = alookup l k' := by
  induction l with
  | nil => simp [alookup, aset, h]
  | cons p t ih =>
    obtain ⟨a, b⟩ := p
    by_cases ha : a = k
    · subst ha
      simp [alookup, aset, h]
    · simp only [aset, if_neg ha]
      by_cases ha' : a = k'
      · simp [alookup, ha']
      · simp [alookup, ha', ih]

/-!
## Dedup queue

Embedding of `Type[T]` from `util/workqueue`: an ordered pending list
`queue`, the `dirty` and `processing` sets, and the `shuttingDown` and
`drain` flags.  The condition variable, metrics ticker and clock carry
no queue state and are omitted.
-/

/-- State of the deduplicating work queue (`Type[T]` in the Go source). -/
structure QType (K : Type) [DecidableEq K] where
  queue : List K
  dirty : Finset K
  processing : Finset K
  shuttingDown : Bool
  drain : Bool

/-- The freshly constructed queue (`newQueue`): everything empty, not shutting down. -/
def QType.empty [DecidableEq K] : QType K :=
  ⟨[], ∅, ∅, false, false⟩

/-- Embeds `Type.Add`: no-op when shutting down or already dirty; otherwise mark
dirty and, when the item is not being processed, append it to the pending list. -/
def QType.Add [DecidableEq K] (s : QType K) (k : K) : QType K :=
  if s.shuttingDown then s
  else if k ∈ s.dirty then s
  else if k ∈ s.processing then { s with dirty := insert k s.dirty }
  else { s with dirty := insert k s.dirty, queue := s.queue ++ [k] }

/-- Embeds `Type.Get`.  With a non-empty pending list it removes the head, moves
it from dirty to processing and returns it with `shutdown = false`.  With an
empty pending list the Go code returns `(zero, true)` when shutting down and
blocks (mutating nothing) otherwise; both cases leave the state unchanged, and
the returned shutdown flag is `s.shuttingDown`. -/
def QType.Get [DecidableEq K] (s : QType K) : Option K × Bool × QType K :=
  match s.queue with
  | [] => (none, s.shuttingDown, s)
  | k :: t =>
      (some k, false,
        { s with queue := t, processing := insert k s.processing, dirty := s.dirty.erase k })

/-- Embeds `Type.Done`: remove the item from processing and, when it is still
dirty, re-append it to the pending list. -/
def QType.Done [DecidableEq K] (s : QType K) (k : K) : QType K :=
  if k ∈ s.dirty then
    { s with processing := s.processing.erase k, queue := s.queue ++ [k] }
  else { s with processing := s.processing.erase k }

/-- Embeds `Type.Len`: length of the pending list. -/
def QType.Len [DecidableEq K] (s : QType K) : Nat :=
  s.queue.length

/-- Embeds `Type.shutdown` as called by `ShutDown`: `setDrain(false)` then set
the `shuttingDown` flag (the broadcast carries no state). -/
def QType.ShutDown [DecidableEq K] (s : QType K) : QType K :=
  { s with drain := false, shuttingDown := true }

/-- Embeds `Type.ShutDownWithDrain`: `setDrain(true)` then set `shuttingDown`;
the subsequent `waitForProcessing` loop only blocks and mutates nothing. -/
def QType.ShutDownWithDrain [DecidableEq K] (s : QType K) : QType K :=
  { s with drain := true, shuttingDown := true }

/-- Embeds `Type.ShuttingDown`: read the flag. -/
def QType.ShuttingDown [DecidableEq K] (s : QType K) : Bool :=
  s.shuttingDown

/-- One queue operation, as named in the queue `Interface`. -/
inductive QOp (K : Type) where
  | add (k : K)
  | get
  | done (k : K)
  | len
  | shutDown
  | shutDownWithDrain
  | shuttingDown

/-- Effect of one operation on the queue state.  `Len` and `ShuttingDown` are
pure reads; `Get` contributes the state component of `QType.Get`. -/
def QType.applyOp [DecidableEq K] (s : QType K) : QOp K → QType K
  | .add k => s.Add k
  | .get => (s.Get).2.2
  | .done k => s.Done k
  | .len => s
  | .shutDown => s.ShutDown
  | .shutDownWithDrain => s.ShutDownWithDrain
  | .shuttingDown => s

/-- The state after running a sequence of operations from a start state. -/
def QType.runOps [DecidableEq K] (s : QType K) (ops : List (QOp K)) : QType K :=
  ops.foldl QType.applyOp s

/-- The queue invariant claimed in the spec: every pending key is dirty and not
processing, and the pending list holds no duplicates. -/
def QType.invariant [DecidableEq K] (s : QType K) : Prop :=
  (∀ k ∈ s.queue, k ∈ s.dirty ∧ k ∉ s.processing) ∧ s.queue.Nodup

instance [DecidableEq K] (s : QType K) : Decidable s.invariant := by
  unfold QType.invariant
  infer_instance

/-- States reachable from the empty queue by operation sequences that respect
the intended worker discipline: `Done k` is only invoked while `k` is checked
out (in the processing set).  `Len` and `ShuttingDown` do not change state. -/
inductive QType.WfReachable [DecidableEq K] : QType K → Prop where
  | empty : WfReachable QType.empty
  | add (s : QType K) (k : K) : WfReachable s → WfReachable (s.Add k)
  | get (s : QType K) : WfReachable s → WfReachable (s.Get).2.2
  | done (s : QType K) (k : K) : WfReachable s → k ∈ s.processing →
      WfReachable (s.Done k)
  | shutDown (s : QType K) : WfReachable s → WfReachable s.ShutDown
  | shutDownWithDrain (s : QType K) : WfReachable s →
      WfReachable s.ShutDownWithDrain

theorem QType.Add_of_mem_dirty [DecidableEq K] (s : QType K) (k : K)
    (h : k ∈ s.dirty) : s.Add k = s := by
  unfold QType.Add
  by_cases hs : s.shuttingDown <;> simp [hs, h]

/-- C3 counterexample run: an `Add` immediately followed by a `Done` on the same
key, with no intervening `Get`.  `Done` finds the key dirty and appends it to
the pending list even though `Add` already queued it, duplicating it. -/
theorem c3_queue_invariant_counterexample :
    ¬ (QType.empty.runOps [QOp.add 0, QOp.done 0] : QType Nat).invariant := by
  decide

/-- C3 (amended): in every state reachable from the empty queue by sequences of
queue operations in which `Done k` is only invoked while `k` is in the
processing set, every pending key is dirty and not processing, and the pending
list has no duplicates. -/
theorem c3_queue_invariant_wf [DecidableEq K] (s : QType K)
    (h : s.WfReachable) : s.invariant := by
  induction h with
  | empty => exact ⟨by simp [QType.empty], by simp [QType.empty]⟩
  | add s k _ ih =>
    obtain ⟨h1, h2⟩ := ih
    unfold QType.Add
    by_cases hs : s.shuttingDown
    · simpa [hs] using ⟨h1, h2⟩
    by_cases hd : k ∈ s.dirty
    · simpa [hs, hd] using ⟨h1, h2⟩
    by_cases hp : k ∈ s.processing
    · simp only [hs, hd, hp]
      refine ⟨fun x hx => ?_, by simpa using h2⟩
      simp only [if_false, if_true, Bool.false_eq_true]
      exact ⟨Finset.mem_insert_of_mem (h1 x (by simpa using hx)).1,
        (h1 x (by simpa using hx)).2⟩
    · have hknq : k ∉ s.queue := fun hk => hd (h1 k hk).1
      simp only [hs, hd, hp]
      constructor
      · intro x hx
        simp only [Bool.false_eq_true, if_false, List.mem_append,
          List.mem_singleton] at hx ⊢
        rcases hx with hx | rfl
        · exact ⟨Finset.mem_insert_of_mem (h1 x hx).1, (h1 x hx).2⟩
        · exact ⟨Finset.mem_insert_self x _, hp⟩
      · simp only [Bool.false_eq_true, if_false]
        exact List.Nodup.append h2 (List.nodup_singleton k)
          (fun a ha hak => hknq ((List.mem_singleton.mp hak) ▸ ha))
  | get s _ ih =>
    obtain ⟨h1, h2⟩ := ih
    unfold QType.Get
    cases hq : s.queue with
    | nil => exact ⟨by simp_all, by simp_all⟩
    | cons k t =>
      have hkt : k ∉ t := by
        have := h2
        rw [hq] at this
        exact (List.nodup_cons.mp this).1
      have ht : t.Nodup := by
        have := h2
        rw [hq] at this
        exact (List.nodup_cons.mp this).2
      refine ⟨fun x hx => ?_, ht⟩
      simp only at hx
      have hxkt : x ∈ s.queue := by rw [hq]; exact List.mem_cons_of_mem k hx
      have hxk : x ≠ k := fun h => hkt (h ▸ hx)
      refine ⟨Finset.mem_erase.mpr ⟨hxk, (h1 x hxkt).1⟩, ?_⟩
      simp only [Finset.mem_insert, not_or]
      exact ⟨hxk, (h1 x hxkt).2⟩
  | done s k _ hk ih =>
    obtain ⟨h1, h2⟩ := ih
    have hknq : k ∉ s.queue := fun hq => (h1 k hq).2 hk
    unfold QType.Done
    by_cases hd : k ∈ s.dirty
    · simp only [hd, if_true]
      constructor
      · intro x hx
        simp only [List.mem_append, List.mem_singleton] at hx
        rcases hx with hx | rfl
        · exact ⟨(h1 x hx).1, fun hm => (h1 x hx).2 (Finset.mem_of_mem_erase hm)⟩
        · exact ⟨hd, Finset.not_mem_erase x _⟩
      · exact List.Nodup.append h2 (List.nodup_singleton k)
          (fun a ha hak => hknq ((List.mem_singleton.mp hak) ▸ ha))
    · simp only [hd, if_false]
      exact ⟨fun x hx => ⟨(h1 x hx).1,
        fun hm => (h1 x hx).2 (Finset.mem_of_mem_erase hm)⟩, h2⟩
  | shutDown s _ ih => exact ⟨fun x hx => ih.1 x hx, ih.2⟩
  | shutDownWithDrain s _ ih => exact ⟨fun x hx => ih.1 x hx, ih.2⟩

theorem c3_queue_invariant_wf_witness :
    ((QType.empty : QType Nat).Add 3).invariant :=
  c3_queue_invariant_wf _ (QType.WfReachable.add _ 3 QType.WfReachable.empty)


theorem QType.iterate_Add_of_mem_dirty [DecidableEq K] (s : QType K) (k : K)
    (h : k ∈ s.dirty) (m : Nat) : (fun t => QType.Add t k)^[m] s = s := by
  induction m with
  | zero => rfl
  | succ m ih =>
    rw [Function.iterate_succ_apply, QType.Add_of_mem_dirty s k h, ih]

/-- C2: coalescing under processing.  From a state where `k` is checked out
(`k` in processing, not dirty, not pending) and the queue is not shut down,
any number `n` of `Add k` calls followed by `Done k` leave `k` pending exactly
once when `n ≥ 1`, and not at all when `n = 0`. -/
theorem c2_coalescing_under_processing [DecidableEq K] (s : QType K) (k : K)
    (n : Nat) (hs : s.shuttingDown = false) (hp : k ∈ s.processing)
    (hd : k ∉ s.dirty) (hq : k ∉ s.queue) :
    (((fun t => QType.Add t k)^[n] s).Done k).queue.count k =
      if n = 0 then 0 else 1 := by
  have hcount : s.queue.count k = 0 := List.count_eq_zero.mpr hq
  cases n with
  | zero =>
    simp only [Function.iterate_zero, id, if_true]
    unfold QType.Done
    simp [hd, hcount]
  | succ m =>
    have hstep : s.Add k = { s with dirty := insert k s.dirty } := by
      unfold QType.Add
      simp [hs, hd, hp]
    have hrest : (fun t => QType.Add t k)^[m + 1] s =
        { s with dirty := insert k s.dirty } := by
      rw [Function.iterate_succ_apply, hstep]
      exact QType.iterate_Add_of_mem_dirty _ k (Finset.mem_insert_self k _) m
    rw [hrest]
    unfold QType.Done
    simp [hcount]

theorem c2_coalescing_under_processing_witness :
    (((fun t => QType.Add t 5)^[3] (⟨[], ∅, {5}, false, false⟩ : QType Nat)).Done 5).queue.count 5 =
      if 3 = 0 then 0 else 1 :=
  c2_coalescing_under_processing _ 5 3 rfl (by decide) (by decide) (by decide)

/-- C9: after shutdown, `Add` is a silent no-op leaving the whole state
unchanged, and `Get` on an empty pending list returns immediately with
`shutdown = true` and no key, also leaving the state unchanged. -/
theorem c9_shutdown_noops [DecidableEq K] (s : QType K) (k : K)
    (h : s.shuttingDown = true) :
    s.Add k = s ∧ (s.queue = [] → s.Get = (none, true, s)) := by
  constructor
  · unfold QType.Add
    simp [h]
  · intro hq
    unfold QType.Get
    rw [hq]
    simp [h]

theorem c9_shutdown_noops_witness :
    (⟨[], ∅, ∅, true, false⟩ : QType Nat).Add 7 = ⟨[], ∅, ∅, true, false⟩ ∧
      (⟨[], ∅, ∅, true, false⟩ : QType Nat).Get = (none, true, ⟨[], ∅, ∅, true, false⟩) :=
  ⟨(c9_shutdown_noops (⟨[], ∅, ∅, true, false⟩ : QType Nat) 7 rfl).1,
    (c9_shutdown_noops (⟨[], ∅, ∅, true, false⟩ : QType Nat) 7 rfl).2 rfl⟩

/-!
## Rate limiters

Embedding of `ItemExponentialFailureRateLimiter`.  Durations are `Int`
nanoseconds.  The Go code computes the backoff in float64 as
`float64(baseDelay.Nanoseconds()) * math.Pow(2, float64(exp))`, and the
embedding models that float64 computation faithfully: converting the
`int64` base to float64 rounds it to 53 significant bits, nearest, ties
to even (`rnd53`); `math.Pow(2, e)` is exactly `2^e` for `e <= 1023`
and overflows to `+Inf` beyond; multiplying a float64 by a power of two
only shifts its exponent, so the product is exact unless its magnitude
reaches `2^1024`, where it becomes `±Inf` (and `0 * Inf` is NaN).  The
guard `backoff > math.MaxInt64` compares against the float64 value of
the constant `MaxInt64`, which rounds to `2^63`; a finite backoff equal
to `2^63` (or below `-2^63`) therefore escapes the guard and reaches
Go`s implementation-defined float-to-int64 conversion, embedded as the
unspecified result `none`.
-/

/-- The largest value representable by Go `int64` / `time.Duration`. -/
def maxInt64 : Int := 2 ^ 63 - 1

/-- The float64 value of the constant `math.MaxInt64` as used in the guard
`backoff > math.MaxInt64`: `2^63 - 1` rounds to `2^63`. -/
def float64MaxInt64 : Int := 2 ^ 63

/-- Number of binary digits of a natural number, with explicit fuel; fuel 64
covers every value arising from the `int64` domain of the Go fields. -/
def bitlen : Nat → Nat → Nat
  | 0, _ => 0
  | fuel + 1, x => if x = 0 then 0 else bitlen fuel (x / 2) + 1

/-- Round a natural number to 53 significant bits, nearest, ties to even.
The rounding granularity for `2^(52+e) <= m < 2^(53+e)` is `2^e`, and
`e = bitlen (m / 2^53)`. -/
def rnd53nat (m : Nat) : Nat :=
  let e := bitlen 64 (m / 2 ^ 53)
  if e = 0 then m
  else
    let q := m / 2 ^ e
    let r := m % 2 ^ e
    let half := 2 ^ (e - 1)
    if half < r ∨ (r = half ∧ q % 2 = 1) then (q + 1) * 2 ^ e else q * 2 ^ e

/-- The exact value of the Go conversion `float64(b)` for an `int64` value
`b`: round to nearest, ties to even, symmetric in the sign. -/
def rnd53 (b : Int) : Int :=
  if b < 0 then -(rnd53nat (-b).toNat) else rnd53nat b.toNat

/-- A float64 value arising in the backoff computation: an exactly
represented integer, an infinity, or NaN. -/
inductive GoFloat where
  | finite (v : Int)
  | posInf
  | negInf
  | nan

/-- The float64 overflow threshold `2^1024`, computed over `Nat`. -/
def pow2_1024 : Int := ((2 ^ 1024 : Nat) : Int)

theorem pow2_1024_eq : pow2_1024 = (2 : Int) ^ 1024 := by
  unfold pow2_1024
  push_cast
  rfl

theorem pow2_1024_pos : (0 : Int) < pow2_1024 := by
  rw [pow2_1024_eq]
  positivity

/-- The value of `float64(b) * math.Pow(2, float64(exp))` in Go:
`Pow(2, exp)` overflows to `+Inf` for `exp >= 1024` (making the product
`±Inf`, or NaN for a zero base); otherwise the product is exact unless its
magnitude reaches `2^1024`, where it is `±Inf`. -/
def floatMulPow2 (b : Int) (exp : Nat) : GoFloat :=
  if 1024 ≤ exp then
    if 0 < rnd53 b then GoFloat.posInf
    else if rnd53 b < 0 then GoFloat.negInf
    else GoFloat.nan
  else if pow2_1024 ≤ rnd53 b * 2 ^ exp then GoFloat.posInf
  else if rnd53 b * 2 ^ exp ≤ -pow2_1024 then GoFloat.negInf
  else GoFloat.finite (rnd53 b * 2 ^ exp)

/-- The Go float64 comparison `backoff > math.MaxInt64` (against `2^63`;
false for NaN and `-Inf`). -/
def floatGtMaxInt64 : GoFloat → Bool
  | GoFloat.finite v => float64MaxInt64 < v
  | GoFloat.posInf => true
  | GoFloat.negInf => false
  | GoFloat.nan => false

/-- The Go conversion `time.Duration(backoff)`: exact for a finite integer
value in the `int64` range, implementation-defined (embedded as `none`)
otherwise. -/
def goDurationOfFloat : GoFloat → Option Int
  | GoFloat.finite v => if v < -(2 ^ 63) ∨ maxInt64 < v then none else some v
  | GoFloat.posInf => none
  | GoFloat.negInf => none
  | GoFloat.nan => none

/-- The duration returned by `ItemExponentialFailureRateLimiter.When` for a
failure count `exp`, following the Go control flow: the float64 guard clamps
to `maxDelay`, then `calculated := time.Duration(backoff)` (unspecified
outside the `int64` range, poisoning the result), then `calculated` is
clamped against `maxDelay`. -/
def expWhenResult (base maxD : Int) (exp : Nat) : Option Int :=
  if floatGtMaxInt64 (floatMulPow2 base exp) then some maxD
  else
    match goDurationOfFloat (floatMulPow2 base exp) with
    | none => none
    | some calculated => if maxD < calculated then some maxD else some calculated

/-- State of `ItemExponentialFailureRateLimiter[T]`: a per-key failure
counter map plus the two configured delays (nanoseconds). -/
structure ExpState (K : Type) [DecidableEq K] where
  failures : List (K × Nat)
  baseDelay : Int
  maxDelay : Int

/-- A freshly constructed exponential limiter
(`NewItemExponentialFailureRateLimiter`): empty failure map. -/
def ExpState.fresh [DecidableEq K] (base maxD : Int) : ExpState K :=
  ⟨[], base, maxD⟩

/-- Embeds `ItemExponentialFailureRateLimiter.When`: read the key`s failure
count, increment it, and return the float64 backoff result (`none` marking
an implementation-defined out-of-range conversion). -/
def ExpState.When [DecidableEq K] (r : ExpState K) (k : K) :
    ExpState K × Option Int :=
  (⟨aset r.failures k ((alookup r.failures k).getD 0 + 1), r.baseDelay, r.maxDelay⟩,
    expWhenResult r.baseDelay r.maxDelay ((alookup r.failures k).getD 0))

/-- Embeds `ItemExponentialFailureRateLimiter.NumRequeues`: read the counter. -/
def ExpState.NumRequeues [DecidableEq K] (r : ExpState K) (k : K) : Nat :=
  (alookup r.failures k).getD 0

/-- Embeds `ItemExponentialFailureRateLimiter.Forget`: drop the counter. -/
def ExpState.Forget [DecidableEq K] (r : ExpState K) (k : K) : ExpState K :=
  { r with failures := aerase r.failures k }

/-- The limiter state after `n` consecutive `When k` calls. -/
def ExpState.iterWhen [DecidableEq K] (k : K) : Nat → ExpState K → ExpState K
  | 0, r => r
  | n + 1, r => ExpState.iterWhen k n (r.When k).1

theorem ExpState.When_fst [DecidableEq K] (r : ExpState K) (k : K) :
    (r.When k).1 =
      ⟨aset r.failures k ((alookup r.failures k).getD 0 + 1),
        r.baseDelay, r.maxDelay⟩ :=
  rfl

theorem ExpState.iterWhen_numRequeues [DecidableEq K] (k : K) (n : Nat)
    (r : ExpState K) :
    (ExpState.iterWhen k n r).NumRequeues k = r.NumRequeues k + n ∧
      (ExpState.iterWhen k n r).baseDelay = r.baseDelay ∧
      (ExpState.iterWhen k n r).maxDelay = r.maxDelay := by
  induction n generalizing r with
  | zero => exact ⟨rfl, rfl, rfl⟩
  | succ m ih =>
    have h1 : ((r.When k).1).NumRequeues k = r.NumRequeues k + 1 := by
      rw [ExpState.When_fst]
      unfold ExpState.NumRequeues
      simp [alookup_aset_self]
    have := ih (r.When k).1
    refine ⟨?_, ?_, ?_⟩
    · rw [show ExpState.iterWhen k (m + 1) r = ExpState.iterWhen k m (r.When k).1 from rfl,
        this.1, h1]
      omega
    · rw [show ExpState.iterWhen k (m + 1) r = ExpState.iterWhen k m (r.When k).1 from rfl,
        this.2.1, ExpState.When_fst]
    · rw [show ExpState.iterWhen k (m + 1) r = ExpState.iterWhen k m (r.When k).1 from rfl,
        this.2.2, ExpState.When_fst]

theorem ExpState.When_snd [DecidableEq K] (r : ExpState K) (k : K) :
    (r.When k).2 = expWhenResult r.baseDelay r.maxDelay (r.NumRequeues k) :=
  rfl

theorem expWhenResult_of_posInf (base maxD : Int) (e : Nat)
    (h : floatMulPow2 base e = GoFloat.posInf) :
    expWhenResult base maxD e = some maxD := by
  unfold expWhenResult
  rw [h]
  rfl

theorem expWhenResult_of_finite_big (base maxD : Int) (e : Nat) (v : Int)
    (h : floatMulPow2 base e = GoFloat.finite v) (hv : float64MaxInt64 < v) :
    expWhenResult base maxD e = some maxD := by
  unfold expWhenResult
  rw [h]
  simp [floatGtMaxInt64, hv]

theorem expWhenResult_of_finite_inrange (base maxD : Int) (e : Nat) (v : Int)
    (h : floatMulPow2 base e = GoFloat.finite v) (hlo : -(2 ^ 63) ≤ v)
    (hhi : v ≤ maxInt64) :
    expWhenResult base maxD e = some (min v maxD) := by
  have hngt : ¬ float64MaxInt64 < v := by
    unfold float64MaxInt64
    unfold maxInt64 at hhi
    omega
  have hgf : floatGtMaxInt64 (GoFloat.finite v) = false := by
    show decide (float64MaxInt64 < v) = false
    exact decide_eq_false hngt
  have hdur : goDurationOfFloat (GoFloat.finite v) = some v := by
    show (if v < -(2 ^ 63) ∨ maxInt64 < v then none else some v) = some v
    rw [if_neg]
    push_neg
    exact ⟨hlo, hhi⟩
  unfold expWhenResult
  rw [h, hgf, hdur]
  show (if maxD < v then some maxD else some v) = some (min v maxD)
  by_cases hvm : maxD < v
  · rw [if_pos hvm, min_eq_right (le_of_lt hvm)]
  · rw [if_neg hvm, min_eq_left (le_of_not_lt hvm)]

set_option maxRecDepth 8000 in
/-- C4 counterexample: a base delay of `2^53 + 1` nanoseconds is not
representable in float64 and rounds (ties to even) to `2^53`, so the first
`When` call returns `2^53` ns, not `min(baseDelay * 2^(1-1), maxDelay) =
2^53 + 1` ns as the claim states for every base delay. -/
theorem c4_exponential_backoff_counterexample :
    (ExpState.When (ExpState.fresh (2 ^ 53 + 1) (2 ^ 62) : ExpState Nat) 0).2 =
        some (2 ^ 53) ∧
      (2 ^ 53 : Int) ≠ min ((2 ^ 53 + 1) * 2 ^ (1 - 1)) (2 ^ 62) := by
  constructor
  · decide
  · decide

/-- C4 (amended): consecutive calls of the exponential limiter.  For a
positive base delay `b` that float64 represents exactly (`rnd53 b = b`, which
holds for every base of at most 53 significant bits, in particular the
default 5ms and the documented 1s) and a maximum delay `m` in the `int64`
range (as any Go duration is), the `n`-th consecutive `When k` call with no
intervening `Forget k` returns `min (b * 2^(n-1)) m` — the doubling sequence,
clamped to `m`, with products beyond the `int64` range (float64 overflow
included) also clamping to `m` — except at `b * 2^(n-1)` exactly `2^63`,
where the guard does not fire and the conversion is implementation-defined. -/
theorem c4_exponential_backoff [DecidableEq K] (k : K) (b m : Int) (n : Nat)
    (hn : 1 ≤ n) (hb : 0 < b) (hexact : rnd53 b = b) (hm : m ≤ maxInt64)
    (hne : b * 2 ^ (n - 1) ≠ float64MaxInt64) :
    (ExpState.When (ExpState.iterWhen k (n - 1) (ExpState.fresh b m : ExpState K)) k).2 =
      some (min (b * 2 ^ (n - 1)) m) := by
  obtain ⟨h1, h2, h3⟩ :=
    ExpState.iterWhen_numRequeues k (n - 1) (ExpState.fresh b m : ExpState K)
  rw [ExpState.When_snd, h1, h2, h3]
  show expWhenResult b m (0 + (n - 1)) = some (min (b * 2 ^ (n - 1)) m)
  rw [Nat.zero_add]
  have hb1 : (1 : Int) ≤ b := by omega
  have hmaxlt : maxInt64 < pow2_1024 := by
    rw [pow2_1024_eq]
    norm_num [maxInt64]
  by_cases hebig : 1024 ≤ n - 1
  · have hpos : floatMulPow2 b (n - 1) = GoFloat.posInf := by
      unfold floatMulPow2
      rw [hexact, if_pos hebig, if_pos hb]
    rw [expWhenResult_of_posInf b m (n - 1) hpos]
    have hbig : maxInt64 < b * 2 ^ (n - 1) := by
      have h2e : pow2_1024 ≤ 2 ^ (n - 1) := by
        rw [pow2_1024_eq]
        exact pow_le_pow_right₀ (by norm_num) hebig
      have hbe : (2 : Int) ^ (n - 1) ≤ b * 2 ^ (n - 1) :=
        le_mul_of_one_le_left (pow_nonneg (by norm_num) (n - 1)) hb1
      exact lt_of_lt_of_le hmaxlt (le_trans h2e hbe)
    rw [min_eq_right (le_of_lt (lt_of_le_of_lt hm hbig))]
  · by_cases hv1 : pow2_1024 ≤ b * 2 ^ (n - 1)
    · have hpos : floatMulPow2 b (n - 1) = GoFloat.posInf := by
        unfold floatMulPow2
        rw [hexact, if_neg hebig, if_pos hv1]
      rw [expWhenResult_of_posInf b m (n - 1) hpos]
      have hbig : maxInt64 < b * 2 ^ (n - 1) := lt_of_lt_of_le hmaxlt hv1
      rw [min_eq_right (le_of_lt (lt_of_le_of_lt hm hbig))]
    · have hvpos : 0 < b * 2 ^ (n - 1) := mul_pos hb (pow_pos (by norm_num) (n - 1))
      have hfin : floatMulPow2 b (n - 1) = GoFloat.finite (b * 2 ^ (n - 1)) := by
        unfold floatMulPow2
        rw [hexact, if_neg hebig, if_neg hv1,
          if_neg (not_le_of_lt (lt_trans (neg_lt_zero.mpr pow2_1024_pos) hvpos))]
      by_cases hgt : float64MaxInt64 < b * 2 ^ (n - 1)
      · rw [expWhenResult_of_finite_big b m (n - 1) _ hfin hgt]
        have hbig : maxInt64 < b * 2 ^ (n - 1) := by
          unfold float64MaxInt64 at hgt
          unfold maxInt64
          omega
        rw [min_eq_right (le_of_lt (lt_of_le_of_lt hm hbig))]
      · have hhi : b * 2 ^ (n - 1) ≤ maxInt64 := by
          rcases lt_or_eq_of_le (le_of_not_lt hgt) with h | h
          · unfold float64MaxInt64 at h
            unfold maxInt64
            omega
          · exact absurd h hne
        have hlo : -(2 ^ 63 : Int) ≤ b * 2 ^ (n - 1) :=
          le_of_lt (lt_of_le_of_lt (by norm_num) hvpos)
        rw [expWhenResult_of_finite_inrange b m (n - 1) _ hfin hlo hhi]

theorem c4_exponential_backoff_witness :
    (ExpState.When
        (ExpState.iterWhen 5 (7 - 1) (ExpState.fresh (10 ^ 9) (6 * 10 ^ 10) : ExpState Nat)) 5).2 =
      some (min ((10 ^ 9 : Int) * 2 ^ (7 - 1)) (6 * 10 ^ 10)) :=
  c4_exponential_backoff 5 (10 ^ 9) (6 * 10 ^ 10) 7 (by decide) (by decide)
    (by decide) (by decide) (by decide)

/-!
## MaxOf combinator

`MaxOfRateLimiter[T]` holds a list of child limiters behind the
`RateLimiter` interface.  The children are embedded as a list of child
states of one type `σ` together with the interface methods `wfn`
(`When`, returning updated state and delay), `nfn` (`NumRequeues`) and
`ffn` (`Forget`) passed explicitly.
-/

/-- Embeds the loop body of `MaxOfRateLimiter.When`: visit every child in
order, invoking its `When` and folding the running maximum `ret`,
which starts at `0`. -/
def maxOfWhenGo (wfn : σ → K → σ × Int) (k : K) : List σ → Int → List σ × Int
  | [], ret => ([], ret)
  | c :: t, ret =>
      let r := wfn c k
      let rest := maxOfWhenGo wfn k t (if r.2 > ret then r.2 else ret)
      (r.1 :: rest.1, rest.2)

/-- Embeds `MaxOfRateLimiter.When` (`ret := 0`, then the loop). -/
def maxOfWhen (wfn : σ → K → σ × Int) (ls : List σ) (k : K) : List σ × Int :=
  maxOfWhenGo wfn k ls 0

/-- Embeds `MaxOfRateLimiter.NumRequeues`: fold the running maximum of the
children's counts, starting at `0`. -/
def maxOfNumRequeues (nfn : σ → K → Int) (ls : List σ) (k : K) : Int :=
  ls.foldl (fun ret c => if nfn c k > ret then nfn c k else ret) 0

/-- Embeds `MaxOfRateLimiter.Forget`: forget on every child. -/
def maxOfForget (ffn : σ → K → σ) (ls : List σ) (k : K) : List σ :=
  ls.map (fun c => ffn c k)

theorem if_gt_eq_max (a b : Int) : (if b > a then b else a) = max a b := by
  rcases le_or_lt b a with h | h
  · rw [if_neg (not_lt_of_le h), max_eq_left h]
  · rw [if_pos h, max_eq_right (le_of_lt h)]

theorem maxOfWhenGo_fst (wfn : σ → K → σ × Int) (k : K) (ls : List σ)
    (ret : Int) : (maxOfWhenGo wfn k ls ret).1 = ls.map (fun c => (wfn c k).1) := by
  induction ls generalizing ret with
  | nil => rfl
  | cons c t ih => simp [maxOfWhenGo, ih]

theorem maxOfWhenGo_snd (wfn : σ → K → σ × Int) (k : K) (ls : List σ)
    (ret : Int) :
    (maxOfWhenGo wfn k ls ret).2 =
      (ls.map (fun c => (wfn c k).2)).foldl max ret := by
  induction ls generalizing ret with
  | nil => rfl
  | cons c t ih => simp [maxOfWhenGo, ih, if_gt_eq_max]

theorem foldl_max_le_iff (l : List Int) (a x : Int) :
    l.foldl max a ≤ x ↔ a ≤ x ∧ ∀ r ∈ l, r ≤ x := by
  induction l generalizing a with
  | nil => simp
  | cons b t ih =>
    simp only [List.foldl_cons, ih, max_le_iff, List.mem_cons]
    constructor
    · rintro ⟨⟨h1, h2⟩, h3⟩
      exact ⟨h1, fun r hr => by rcases hr with rfl | hr; exact h2; exact h3 r hr⟩
    · rintro ⟨h1, h2⟩
      exact ⟨⟨h1, h2 b (Or.inl rfl)⟩, fun r hr => h2 r (Or.inr hr)⟩

theorem foldl_max_mem (l : List Int) (a : Int) : l.foldl max a ∈ a :: l := by
  induction l generalizing a with
  | nil => simp
  | cons b t ih =>
    simp only [List.foldl_cons]
    rcases List.mem_cons.mp (ih (max a b)) with h | h
    · rw [h]
      rcases max_choice a b with hm | hm <;> rw [hm]
      · exact List.mem_cons_self a _
      · exact List.mem_cons_of_mem a (List.mem_cons_self b t)
    · exact List.mem_cons_of_mem a (List.mem_cons_of_mem b h)

/-- C7: the MaxOf combinator.  `When` invokes `When` on every child (each
child's state is updated) and returns the fold of the running maximum of the
children's delays started at `0`; for a non-empty child list with non-negative
delays this is exactly the maximum of the children's results.  `NumRequeues`
is the same fold over the children's counts.  `Forget` forgets on every
child. -/
theorem c7_maxOf_combinator (wfn : σ → K → σ × Int) (nfn : σ → K → Int)
    (ffn : σ → K → σ) (ls : List σ) (k : K) :
    (maxOfWhen wfn ls k).1 = ls.map (fun c => (wfn c k).1) ∧
    (maxOfWhen wfn ls k).2 = (ls.map (fun c => (wfn c k).2)).foldl max 0 ∧
    (ls ≠ [] → (∀ r ∈ ls.map (fun c => (wfn c k).2), 0 ≤ r) →
      (maxOfWhen wfn ls k).2 ∈ ls.map (fun c => (wfn c k).2) ∧
      ∀ r ∈ ls.map (fun c => (wfn c k).2), r ≤ (maxOfWhen wfn ls k).2) ∧
    maxOfNumRequeues nfn ls k = (ls.map (fun c => nfn c k)).foldl max 0 ∧
    (ls ≠ [] → (∀ r ∈ ls.map (fun c => nfn c k), 0 ≤ r) →
      maxOfNumRequeues nfn ls k ∈ ls.map (fun c => nfn c k) ∧
      ∀ r ∈ ls.map (fun c => nfn c k), r ≤ maxOfNumRequeues nfn ls k) ∧
    maxOfForget ffn ls k = ls.map (fun c => ffn c k) := by
  have hmem : ∀ (l : List Int), l ≠ [] → (∀ r ∈ l, 0 ≤ r) →
      l.foldl max 0 ∈ l ∧ ∀ r ∈ l, r ≤ l.foldl max 0 := by
    intro l hne hpos
    have hub : ∀ r ∈ l, r ≤ l.foldl max 0 :=
      fun r hr => ((foldl_max_le_iff l 0 (l.foldl max 0)).mp le_rfl).2 r hr
    refine ⟨?_, hub⟩
    rcases List.mem_cons.mp (foldl_max_mem l 0) with h0 | h
    · cases l with
      | nil => exact absurd rfl hne
      | cons b t =>
        have hb0 : b ≤ (b :: t).foldl max 0 := hub b (List.mem_cons_self b t)
        rw [h0] at hb0
        have h0b : 0 ≤ b := hpos b (List.mem_cons_self b t)
        have hbeq : b = 0 := le_antisymm hb0 h0b
        rw [h0, ← hbeq]
        exact List.mem_cons_self b t
    · exact h
  refine ⟨maxOfWhenGo_fst wfn k ls 0, maxOfWhenGo_snd wfn k ls 0, ?_, ?_, ?_, rfl⟩
  · intro hne hpos
    rw [maxOfWhen, maxOfWhenGo_snd wfn k ls 0]
    exact hmem _ (by simpa using hne) hpos
  · rw [maxOfNumRequeues]
    induction ls generalizing k with
    | nil => rfl
    | cons c t ih => simp [if_gt_eq_max, List.foldl_map]
  · intro hne hpos
    have heq : maxOfNumRequeues nfn ls k = (ls.map (fun c => nfn c k)).foldl max 0 := by
      rw [maxOfNumRequeues, List.foldl_map]
      congr 1
      funext ret c
      exact if_gt_eq_max ret (nfn c k)
    rw [heq]
    exact hmem _ (by simpa using hne) hpos

theorem c7_maxOf_combinator_witness :
    (maxOfWhen (fun (c : Int) (_ : Nat) => (c, c)) [2 * 10 ^ 9, 5 * 10 ^ 9] 0).2 ∈
        ([2 * 10 ^ 9, 5 * 10 ^ 9] : List Int).map
          (fun c => ((fun (c : Int) (_ : Nat) => (c, c)) c 0).2) ∧
      ∀ r ∈ ([2 * 10 ^ 9, 5 * 10 ^ 9] : List Int).map
          (fun c => ((fun (c : Int) (_ : Nat) => (c, c)) c 0).2),
        r ≤ (maxOfWhen (fun (c : Int) (_ : Nat) => (c, c)) [2 * 10 ^ 9, 5 * 10 ^ 9] 0).2 :=
  (c7_maxOf_combinator (fun (c : Int) (_ : Nat) => (c, c)) (fun c _ => c) (fun c _ => c)
      [2 * 10 ^ 9, 5 * 10 ^ 9] 0).2.2.1 (by decide) (by decide)

/-!
## Delaying queue

The waiting state of `delayingType.waitingLoop` is a min-heap of
`waitFor` entries plus the companion map `waitingEntryByData` from key to
entry; both hold the same entries, so the scheduled ready times are fully
described by the key-to-readyAt association `waiting` used here (times as
`Int` nanoseconds; `time.Time.After` is `>`).  The `insert` helper is
embedded on that association: `heap.Fix` and `heap.Push` reorder the heap
but do not change any entry's key or readyAt.
-/

/-- Embeds `insert` from the delaying queue loop: for a known key, lower its
ready time when the new one is strictly earlier (`existing.readyAt.After`)
and ignore the request otherwise; push a fresh entry for an unseen key. -/
def insertWait [DecidableEq K] (w : List (K × Int)) (k : K) (r : Int) :
    List (K × Int) :=
  match alookup w k with
  | some r0 => if r0 > r then aset w k r else w
  | none => w ++ [(k, r)]

theorem alookup_append_right [DecidableEq α] (l : List (α × β)) (k : α) (v : β)
    (h : alookup l k = none) : alookup (l ++ [(k, v)]) k = some v := by
  induction l with
  | nil => simp [alookup]
  | cons p t ih =>
    obtain ⟨a, b⟩ := p
    by_cases ha : a = k
    · rw [alookup, if_pos ha] at h
      exact absurd h (by simp)
    · rw [List.cons_append, alookup, if_neg ha]
      rw [alookup, if_neg ha] at h
      exact ih h

theorem insertWait_of_some [DecidableEq K] (w : List (K × Int)) (k : K)
    (r r0 : Int) (h : alookup w k = some r0) :
    insertWait w k r = if r0 > r then aset w k r else w := by
  unfold insertWait
  rw [h]

theorem insertWait_of_none [DecidableEq K] (w : List (K × Int)) (k : K)
    (r : Int) (h : alookup w k = none) :
    insertWait w k r = w ++ [(k, r)] := by
  unfold insertWait
  rw [h]

/-- C5: delay tightening.  A scheduling request for a key with a pending entry
replaces its ready time exactly when the new time is strictly earlier, leaves
the whole waiting state untouched when it is not earlier, inserts a fresh
entry for an unseen key, and in all cases the resulting ready time of the key
is the minimum of the old and new times — it only ever decreases. -/
theorem c5_delay_tightening [DecidableEq K] (w : List (K × Int)) (k : K)
    (r r0 : Int) :
    (alookup w k = some r0 → r < r0 → alookup (insertWait w k r) k = some r) ∧
    (alookup w k = some r0 → r0 ≤ r → insertWait w k r = w) ∧
    (alookup w k = none → alookup (insertWait w k r) k = some r) ∧
    (alookup w k = some r0 → alookup (insertWait w k r) k = some (min r0 r)) := by
  refine ⟨?_, ?_, ?_, ?_⟩
  · intro h hr
    rw [insertWait_of_some w k r r0 h, if_pos hr, alookup_aset_self]
  · intro h hr
    rw [insertWait_of_some w k r r0 h, if_neg (not_lt_of_le hr)]
  · intro h
    rw [insertWait_of_none w k r h]
    exact alookup_append_right w k r h
  · intro h
    rw [insertWait_of_some w k r r0 h]
    by_cases hr : r0 > r
    · rw [if_pos hr, alookup_aset_self, min_eq_right (le_of_lt hr)]
    · rw [if_neg hr, h, min_eq_left (le_of_not_lt hr)]

theorem c5_delay_tightening_witness :
    alookup (insertWait [((4 : Nat), (100 : Int))] 4 30) 4 = some 30 ∧
      alookup (insertWait [((4 : Nat), (100 : Int))] 4 30) 4 = some (min 100 30) :=
  ⟨(c5_delay_tightening [(4, 100)] 4 30 100).1 (by decide) (by decide),
    (c5_delay_tightening [(4, 100)] 4 30 100).2.2.2 (by decide)⟩

/-- State of `delayingType[T]`: the wrapped base queue plus the waiting
key-to-readyAt association held by the waiting loop.  The stop channel,
heartbeat ticker and clock carry no queue state; the handoff through
`waitingForAddCh` to the loop is embedded synchronously. -/
structure DelayingQ (K : Type) [DecidableEq K] where
  base : QType K
  waiting : List (K × Int)

/-- Embeds `delayingType.AddAfter` at time `now`: dropped when the queue is
already shutting down; an immediate base `Add` when `duration <= 0`; otherwise
the entry `{data: item, readyAt: now + duration}` is handed to the waiting
loop, which (since `readyAt` is in the future) runs `insert` on it. -/
def DelayingQ.AddAfter [DecidableEq K] (s : DelayingQ K) (k : K) (duration now : Int) :
    DelayingQ K :=
  if s.base.shuttingDown then s
  else if duration ≤ 0 then { s with base := s.base.Add k }
  else { s with waiting := insertWait s.waiting k (now + duration) }

/-- State of `rateLimitingType[T]`: the wrapped delaying queue plus the rate
limiter, whose state has type `σ` with its interface methods passed
explicitly (as in the MaxOf embedding). -/
structure RateLimitingQ (σ K : Type) [DecidableEq K] where
  dq : DelayingQ K
  rateLimiter : σ

/-- Embeds `rateLimitingType.AddRateLimited`:
`q.DelayingInterface.AddAfter(item, q.rateLimiter.When(item))`. -/
def RateLimitingQ.AddRateLimited [DecidableEq K] (wfn : σ → K → σ × Int)
    (s : RateLimitingQ σ K) (k : K) (now : Int) : RateLimitingQ σ K :=
  ⟨s.dq.AddAfter k (wfn s.rateLimiter k).2 now, (wfn s.rateLimiter k).1⟩

/-- Embeds `rateLimitingType.Forget`: delegate to the limiter only. -/
def RateLimitingQ.Forget [DecidableEq K] (ffn : σ → K → σ)
    (s : RateLimitingQ σ K) (k : K) : RateLimitingQ σ K :=
  ⟨s.dq, ffn s.rateLimiter k⟩

/-- Embeds `rateLimitingType.NumRequeues`: delegate to the limiter. -/
def RateLimitingQ.NumRequeues [DecidableEq K] (nfn : σ → K → Int)
    (s : RateLimitingQ σ K) (k : K) : Int :=
  nfn s.rateLimiter k

/-- C8: the rate-limited queue is a pure composition.  `AddRateLimited k` is
exactly `AddAfter k (limiter.When k)` on the underlying delaying queue with
the limiter state advanced by that `When`; `Forget k` touches only the
limiter, leaving the delaying queue — pending list, dirty set and processing
set included — unchanged; `NumRequeues k` is the limiter's count. -/
theorem c8_rate_limited_composition [DecidableEq K] (wfn : σ → K → σ × Int)
    (ffn : σ → K → σ) (nfn : σ → K → Int) (s : RateLimitingQ σ K) (k : K)
    (now : Int) :
    RateLimitingQ.AddRateLimited wfn s k now =
      ⟨s.dq.AddAfter k (wfn s.rateLimiter k).2 now, (wfn s.rateLimiter k).1⟩ ∧
    (RateLimitingQ.Forget ffn s k).dq = s.dq ∧
    (RateLimitingQ.Forget ffn s k).dq.base.queue = s.dq.base.queue ∧
    (RateLimitingQ.Forget ffn s k).dq.base.dirty = s.dq.base.dirty ∧
    (RateLimitingQ.Forget ffn s k).dq.base.processing = s.dq.base.processing ∧
    (RateLimitingQ.Forget ffn s k).rateLimiter = ffn s.rateLimiter k ∧
    RateLimitingQ.NumRequeues nfn s k = nfn s.rateLimiter k :=
  ⟨rfl, rfl, rfl, rfl, rfl, rfl, rfl⟩

/-!
## Shared informer factory

Embedding of `sharedInformerFactory`: the `informers` registry keyed by
type identity `τ` with task type `ι`, the `staredInformers` started-flag
map, and the `shuttingDown` flag.  `Start` launches `informer.Run` in a
goroutine for each not-yet-started registered informer; launches are
recorded as the list of launched tasks in iteration order.  The wait
group only joins threads and carries no registry state.
-/

/-- State of `sharedInformerFactory`. -/
structure Factory (τ ι : Type) where
  informers : List (τ × ι)
  stared : List (τ × Bool)
  shuttingDown : Bool

/-- The loop body of `sharedInformerFactory.Start`: walk the registry,
skipping informers whose started flag is set, and launching (recording) and
marking the others. -/
def startGo [DecidableEq τ] : List (τ × ι) → List (τ × Bool) → List (τ × Bool) × List ι
  | [], st => (st, [])
  | p :: t, st =>
      if (alookup st p.1).getD false then startGo t st
      else
        let rest := startGo t (aset st p.1 true)
        (rest.1, p.2 :: rest.2)

/-- Embeds `sharedInformerFactory.Start`: a no-op while shutting down,
otherwise run the registry walk and record the launched tasks. -/
def Factory.Start [DecidableEq τ] (f : Factory τ ι) : Factory τ ι × List ι :=
  if f.shuttingDown then (f, [])
  else
    let r := startGo f.informers f.stared
    ({ f with stared := r.1 }, r.2)

/-- Embeds `sharedInformerFactory.Shutdown`: set the terminal flag (the
`wg.Wait` join carries no registry state). -/
def Factory.Shutdown [DecidableEq τ] (f : Factory τ ι) : Factory τ ι :=
  { f with shuttingDown := true }

/-- Embeds `sharedInformerFactory.InformerFor` exactly as written in the
source: it returns `nil` unconditionally and neither consults nor updates the
registry. -/
def Factory.InformerFor [DecidableEq τ] (f : Factory τ ι) (obj : δ) :
    Option ι × Factory τ ι :=
  (none, f)

/-- C1: what `InformerFor` actually does.  For every factory state and every
descriptor it returns `nil` and leaves the registry untouched: no lookup of
an existing task, no construction, no registration ever happens, so the
returned task is nil rather than never-nil. -/
theorem c1_informerFor_returns_nil [DecidableEq τ] (f : Factory τ ι) (obj : δ) :
    f.InformerFor obj = (none, f) ∧ (f.InformerFor obj).2.informers = f.informers :=
  ⟨rfl, rfl⟩

theorem getD_false_eq_true {o : Option Bool} (h : o.getD false = true) :
    o = some true := by
  cases o with
  | none => simp at h
  | some b => simpa using h

theorem startGo_preserves_true [DecidableEq τ] (l : List (τ × ι))
    (st : List (τ × Bool)) (k : τ) (h : alookup st k = some true) :
    alookup (startGo l st : List (τ × Bool) × List ι).1 k = some true := by
  induction l generalizing st with
  | nil => exact h
  | cons p t ih =>
    by_cases hp : (alookup st p.1).getD false
    · rw [startGo, if_pos hp]
      exact ih st h
    · rw [startGo, if_neg hp]
      by_cases hk : p.1 = k
      · exact ih _ (hk ▸ alookup_aset_self st p.1 true)
      · exact ih _ ((alookup_aset_ne st p.1 k true hk).trans h)

theorem startGo_starts_all [DecidableEq τ] (l : List (τ × ι))
    (st : List (τ × Bool)) (k : τ) (h : k ∈ l.map Prod.fst) :
    alookup (startGo l st : List (τ × Bool) × List ι).1 k = some true := by
  induction l generalizing st with
  | nil => simp at h
  | cons p t ih =>
    by_cases hp : (alookup st p.1).getD false
    · rw [startGo, if_pos hp]
      rcases List.mem_cons.mp h with hk | hk
      · exact startGo_preserves_true t st k (hk ▸ getD_false_eq_true hp)
      · exact ih st hk
    · rw [startGo, if_neg hp]
      rcases List.mem_cons.mp h with hk | hk
      · exact startGo_preserves_true t _ k (hk ▸ alookup_aset_self st p.1 true)
      · exact ih _ hk

theorem startGo_noop_of_all_started [DecidableEq τ] (l : List (τ × ι))
    (st : List (τ × Bool)) (h : ∀ k ∈ l.map Prod.fst, alookup st k = some true) :
    startGo l st = (st, ([] : List ι)) := by
  induction l with
  | nil => rfl
  | cons p t ih =>
    have hp : (alookup st p.1).getD false = true := by
      rw [h p.1 (by simp)]
      rfl
    rw [startGo, if_pos hp]
    exact ih fun k hk => h k (List.mem_cons_of_mem _ hk)

theorem startGo_launches [DecidableEq τ] (l : List (τ × ι))
    (st : List (τ × Bool)) (hn : (l.map Prod.fst).Nodup) :
    (startGo l st : List (τ × Bool) × List ι).2 =
      (l.filter (fun p => ! (alookup st p.1).getD false)).map Prod.snd := by
  induction l generalizing st with
  | nil => rfl
  | cons p t ih =>
    have hpt : p.1 ∉ t.map Prod.fst := (List.nodup_cons.mp (by simpa using hn)).1
    have hnt : (t.map Prod.fst).Nodup := (List.nodup_cons.mp (by simpa using hn)).2
    by_cases hp : (alookup st p.1).getD false
    · rw [startGo, if_pos hp, ih st hnt, List.filter_cons]
      simp [hp]
    · rw [startGo, if_neg hp]
      have hcong : t.filter (fun q => ! (alookup (aset st p.1 true) q.1).getD false) =
          t.filter (fun q => ! (alookup st q.1).getD false) := by
        apply List.filter_congr
        intro q hq
        have hne : p.1 ≠ q.1 := fun h => hpt (h ▸ List.mem_map_of_mem Prod.fst hq)
        rw [alookup_aset_ne st p.1 q.1 true hne]
      rw [List.filter_cons]
      simp only [hp, Bool.not_false, if_pos]
      rw [List.map_cons]
      rw [ih _ hnt, hcong]

/-- C6: the single-start guarantee.  When shutting down, `Start` launches
nothing and changes nothing — in particular `Start` after `Shutdown` is a
no-op.  Otherwise `Start` launches exactly the registered tasks whose started
flag is unset (one launch each, never a task already marked started) and marks
them; a second `Start` then launches nothing and changes nothing, so any
number of `Start` calls yield exactly one launch per registered task in
total. -/
theorem c6_single_start [DecidableEq τ] (f : Factory τ ι)
    (hn : (f.informers.map Prod.fst).Nodup) :
    (f.shuttingDown = true → f.Start = (f, [])) ∧
    Factory.Start (f.Shutdown) = (f.Shutdown, []) ∧
    (f.shuttingDown = false →
      (f.Start).2 =
          (f.informers.filter (fun p => ! (alookup f.stared p.1).getD false)).map
            Prod.snd ∧
        Factory.Start (f.Start).1 = ((f.Start).1, [])) := by
  refine ⟨?_, ?_, ?_⟩
  · intro h
    rw [Factory.Start, if_pos h]
  · rw [Factory.Start]
    simp [Factory.Shutdown]
  · intro h
    have hstart : f.Start = ({ f with stared := (startGo f.informers f.stared).1 },
        (startGo f.informers f.stared).2) := by
      rw [Factory.Start, if_neg (by simp [h])]
    constructor
    · rw [hstart]
      exact startGo_launches f.informers f.stared hn
    · rw [hstart]
      rw [Factory.Start, if_neg (by simp [h])]
      have hall : ∀ k ∈ f.informers.map Prod.fst,
          alookup (startGo f.informers f.stared : List (τ × Bool) × List ι).1 k =
            some true :=
        fun k hk => startGo_starts_all f.informers f.stared k hk
      rw [startGo_noop_of_all_started f.informers _ hall]

theorem c6_single_start_witness :
    ((Factory.mk [(0, 10), (1, 11)] [(0, true)] false : Factory Nat Nat).Start).2 =
        ((Factory.mk [(0, 10), (1, 11)] [(0, true)] false : Factory Nat Nat).informers.filter
            (fun p => ! (alookup [(0, true)] p.1).getD false)).map Prod.snd ∧
      Factory.Start ((Factory.mk [(0, 10), (1, 11)] [(0, true)] false : Factory Nat Nat).Start).1 =
        (((Factory.mk [(0, 10), (1, 11)] [(0, true)] false : Factory Nat Nat).Start).1, []) :=
  (c6_single_start (Factory.mk [(0, 10), (1, 11)] [(0, true)] false) (by decide)).2.2 rfl
